import Mathlib

/-!
Verification of the core logic of `Identificator.py` (Sanoscorb/Identificator).

Filenames and paths are modelled as `List Char`.  The two regular expressions

  REGEX_GET_ID  = "^(.+?)-\d+\..+$"     (group 1: the identifier portion)
  REGEX_GET_NUM = "^.+?-(\d+)\..+$"     (group 1: the digit run)

have the same matching structure and differ only in which group is captured,
so a single matcher `reMatch?` returns both captures.  Python `re` semantics
are embedded faithfully for `re.match`:
  * `.` matches any character except a newline;
  * the lazy group `(.+?)` prefers the shortest prefix, scanning split points
    left to right, so the first split whose remainder matches `-\d+\..+$` wins;
  * `\d+` is greedy; since the following literal `.` is not a digit, the
    greedy run is exactly the maximal digit run after the hyphen;
  * `$` matches at the end of the string or just before a newline that is the
    last character.
`\d` and `str.strip()` are modelled over their ASCII behaviour (decimal
digits `0`-`9`, ASCII whitespace), which is exact for all ASCII filenames.
-/

namespace Identificator

/-- Python regex `.`: any character except a newline. -/
def dotMatch (c : Char) : Bool := c ≠ '\n'

/-- Python regex `\d` (ASCII fragment): a decimal digit. -/
def isDig (c : Char) : Bool := c.isDigit

/-- Pattern `.*$` for Python `re`: the remainder consists of non-newline characters,
optionally followed by one final newline (which `$` may precede). -/
def dotStarDollar : List Char → Bool
  | [] => true
  | c :: rest => if c = '\n' then rest = [] else dotStarDollar rest

/-- Pattern `.+$` for Python `re`: like `dotStarDollar` but at least one character is
consumed by `.+`. -/
def dotPlusDollar : List Char → Bool
  | [] => false
  | c :: rest => c ≠ '\n' && dotStarDollar rest

/-- Match `-\d+\..+$` against the remainder after the lazy group, returning
the digit run captured by `\d+`.  The greedy `\d+` takes the maximal digit
run; backtracking it cannot help because the following literal `.` never
matches a digit. -/
def dashNumTail? : List Char → Option (List Char)
  | [] => none
  | c :: rest =>
      if c = '-' then
        let ds := rest.takeWhile isDig
        if ds = [] then none
        else
          match rest.dropWhile isDig with
          | c₂ :: ext =>
              if c₂ = '.' then
                if dotPlusDollar ext then some ds else none
              else none
          | [] => none
      else none

/-- The `re.match` of `^(.+?)-\d+\..+$` (equally of `^.+?-(\d+)\..+$`): returns
`(group of (.+?), group of \d+)`.  The lazy `(.+?)` tries split points left
to right, shortest prefix first; it cannot contain a newline. -/
def reMatch? : List Char → Option (List Char × List Char)
  | [] => none
  | c :: rest =>
      if c = '\n' then none
      else
        match dashNumTail? rest with
        | some ds => some ([c], ds)
        | none =>
            match reMatch? rest with
            | some (p, ds) => some (c :: p, ds)
            | none => none

/-! #### Characterisation of the matcher as the leftmost admissible split -/

/-- The spec-level shape of the remainder after the identifier group:
a hyphen, a non-empty digit run, a dot, a non-empty tail. -/
def AdmTail (r ds : List Char) : Prop :=
  ∃ t, r = '-' :: (ds ++ '.' :: t) ∧ ds ≠ [] ∧ (∀ c ∈ ds, isDig c) ∧ t ≠ []

/-- An admissible decomposition of a filename: a non-empty prefix `p`
followed by a `-<digits>.<tail>` remainder capturing `ds`. -/
def Adm (s p ds : List Char) : Prop :=
  p ≠ [] ∧ ∃ r, s = p ++ r ∧ AdmTail r ds

lemma dotStarDollar_of_no_newline {t : List Char} (ht : ∀ c ∈ t, c ≠ '\n') :
    dotStarDollar t = true := by
  induction t with
  | nil => rfl
  | cons c rest ih =>
      have hc := ht c (List.mem_cons_self _ _)
      simp only [dotStarDollar, if_neg hc]
      exact ih fun x hx => ht x (List.mem_cons_of_mem _ hx)

lemma dotPlusDollar_iff_of_no_newline {t : List Char}
    (ht : ∀ c ∈ t, c ≠ '\n') : dotPlusDollar t = true ↔ t ≠ [] := by
  cases t with
  | nil => simp [dotPlusDollar]
  | cons c rest =>
      have hc := ht c (List.mem_cons_self _ _)
      simp only [dotPlusDollar, Bool.and_eq_true, decide_eq_true_eq]
      exact ⟨fun _ => List.cons_ne_nil _ _,
        fun _ => ⟨hc, dotStarDollar_of_no_newline
          fun x hx => ht x (List.mem_cons_of_mem _ hx)⟩⟩

lemma dotPlusDollar_ne_nil {t : List Char} (h : dotPlusDollar t = true) :
    t ≠ [] := by
  cases t with
  | nil => simp [dotPlusDollar] at h
  | cons c rest => exact List.cons_ne_nil _ _

/-- A digit run followed by a dot is split back off exactly by
`takeWhile`/`dropWhile`. -/
lemma takeWhile_digits (ds t : List Char) (hds : ∀ c ∈ ds, isDig c) :
    (ds ++ '.' :: t).takeWhile isDig = ds ∧
      (ds ++ '.' :: t).dropWhile isDig = '.' :: t := by
  induction ds with
  | nil => simp [List.takeWhile, List.dropWhile, isDig, Char.isDigit]
  | cons a ds ih =>
      have ha : isDig a = true := hds a (List.mem_cons_self _ _)
      have ih' := ih fun c hc => hds c (List.mem_cons_of_mem _ hc)
      simp [List.takeWhile, List.dropWhile, ha, ih'.1, ih'.2]

/-- The computed `-\d+\..+$` matcher returns exactly the digit run of the
unique decomposition of the remainder, with the raw `.+$` condition on the
tail. -/
lemma dashNumTail_some_iff (r ds : List Char) :
    dashNumTail? r = some ds ↔
      ∃ t, r = '-' :: (ds ++ '.' :: t) ∧ ds ≠ [] ∧ (∀ c ∈ ds, isDig c) ∧
        dotPlusDollar t = true := by
  constructor
  · intro h
    cases r with
    | nil => simp [dashNumTail?] at h
    | cons c rest =>
        simp only [dashNumTail?] at h
        by_cases hc : c = '-'
        · subst hc
          rw [if_pos rfl] at h
          by_cases hnil : rest.takeWhile isDig = []
          · simp [hnil] at h
          · rw [if_neg hnil] at h
            cases hdrop : rest.dropWhile isDig with
            | nil => rw [hdrop] at h; exact absurd h (by simp)
            | cons c₂ ext =>
                rw [hdrop] at h
                dsimp only at h
                by_cases hc₂ : c₂ = '.'
                · subst hc₂
                  rw [if_pos rfl] at h
                  by_cases hdp : dotPlusDollar ext = true
                  · rw [if_pos hdp] at h
                    have hds : rest.takeWhile isDig = ds := by
                      simpa using h
                    refine ⟨ext, ?_, hds ▸ hnil,
                      fun x hx => List.mem_takeWhile_imp (hds ▸ hx), hdp⟩
                    have := List.takeWhile_append_dropWhile (p := isDig) (l := rest)
                    rw [← this, hds, hdrop]
                  · rw [if_neg (by simpa using hdp)] at h
                    exact absurd h (by simp)
                · rw [if_neg hc₂] at h
                  exact absurd h (by simp)
        · rw [if_neg hc] at h
          exact absurd h (by simp)
  · rintro ⟨t, rfl, hnil, hds, hdp⟩
    obtain ⟨htake, hdrop⟩ := takeWhile_digits ds t hds
    simp [dashNumTail?, htake, hdrop, hnil, hdp]

/-- The digit run of an admissible remainder is unique. -/
lemma digits_append_inj :
    ∀ ds₁ ds₂ t₁ t₂ : List Char, (∀ c ∈ ds₁, isDig c) → (∀ c ∈ ds₂, isDig c) →
      ds₁ ++ '.' :: t₁ = ds₂ ++ '.' :: t₂ → ds₁ = ds₂
  | [], [], _, _, _, _, _ => rfl
  | [], d :: ds₂, t₁, t₂, _, h₂, h => by
      have : d = '.' := by simpa using congrArg (fun l => l.head?) h.symm
      have hd := h₂ d (List.mem_cons_self _ _)
      rw [this] at hd
      exact absurd hd (by decide)
  | d :: ds₁, [], t₁, t₂, h₁, _, h => by
      have : d = '.' := by simpa using congrArg (fun l => l.head?) h
      have hd := h₁ d (List.mem_cons_self _ _)
      rw [this] at hd
      exact absurd hd (by decide)
  | d₁ :: ds₁, d₂ :: ds₂, t₁, t₂, h₁, h₂, h => by
      have hh : d₁ = d₂ ∧ ds₁ ++ '.' :: t₁ = ds₂ ++ '.' :: t₂ := by
        simpa using h
      rw [hh.1, digits_append_inj ds₁ ds₂ t₁ t₂
        (fun c hc => h₁ c (List.mem_cons_of_mem _ hc))
        (fun c hc => h₂ c (List.mem_cons_of_mem _ hc)) hh.2]

lemma admTail_unique {r ds₁ ds₂ : List Char} (h₁ : AdmTail r ds₁)
    (h₂ : AdmTail r ds₂) : ds₁ = ds₂ := by
  obtain ⟨t₁, rfl, _, hd₁, _⟩ := h₁
  obtain ⟨t₂, he, _, hd₂, _⟩ := h₂
  exact digits_append_inj ds₁ ds₂ t₁ t₂ hd₁ hd₂ (by simpa using he)

/-- For newline-free remainders, `AdmTail` and the computed matcher agree. -/
lemma admTail_iff_dashNumTail {r ds : List Char} (hr : ∀ c ∈ r, c ≠ '\n') :
    AdmTail r ds ↔ dashNumTail? r = some ds := by
  rw [dashNumTail_some_iff]
  constructor
  · rintro ⟨t, rfl, hnil, hds, ht⟩
    refine ⟨t, rfl, hnil, hds, ?_⟩
    refine (dotPlusDollar_iff_of_no_newline fun c hc => ?_).mpr ht
    exact hr c (by simp [hc])
  · rintro ⟨t, rfl, hnil, hds, hdp⟩
    exact ⟨t, rfl, hnil, hds, dotPlusDollar_ne_nil hdp⟩

/-- The matcher `reMatch?` computes the leftmost admissible split: it succeeds exactly on
the admissible decomposition with the shortest identifier prefix. -/
lemma reMatch_iff (s : List Char) (hs : ∀ c ∈ s, c ≠ '\n') (p ds : List Char) :
    reMatch? s = some (p, ds) ↔
      Adm s p ds ∧ ∀ q es, Adm s q es → p.length ≤ q.length := by
  revert hs p ds
  induction s with
  | nil =>
      intro hs p ds
      simp only [reMatch?]
      constructor
      · intro h; cases h
      · rintro ⟨⟨hp, r, he, _⟩, _⟩
        exact absurd (List.append_eq_nil.mp he.symm).1 hp
  | cons c rest ih =>
      intro hs p ds
      have hc : c ≠ '\n' := hs c (List.mem_cons_self _ _)
      have hrest : ∀ x ∈ rest, x ≠ '\n' :=
        fun x hx => hs x (List.mem_cons_of_mem _ hx)
      have hAdm1 : ∀ es, Adm (c :: rest) [c] es ↔ dashNumTail? rest = some es := by
        intro es
        constructor
        · rintro ⟨_, r, he, htail⟩
          obtain rfl : rest = r := by simpa using he
          exact (admTail_iff_dashNumTail hrest).mp htail
        · intro h
          exact ⟨List.cons_ne_nil _ _, rest, rfl,
            (admTail_iff_dashNumTail hrest).mpr h⟩
      have hAdmCons : ∀ q' es, Adm (c :: rest) (c :: q') es ↔
          (q' = [] ∧ dashNumTail? rest = some es) ∨ (q' ≠ [] ∧ Adm rest q' es) := by
        intro q' es
        cases q' with
        | nil =>
            constructor
            · intro h; exact Or.inl ⟨rfl, (hAdm1 es).mp h⟩
            · rintro (⟨_, h⟩ | ⟨hne, _⟩)
              · exact (hAdm1 es).mpr h
              · exact absurd rfl hne
        | cons a q'' =>
            constructor
            · rintro ⟨_, r, he, htail⟩
              have he' : rest = (a :: q'') ++ r := by simpa using he
              exact Or.inr ⟨List.cons_ne_nil _ _,
                List.cons_ne_nil _ _, r, he', htail⟩
            · rintro (⟨h, _⟩ | ⟨_, _, r, he, htail⟩)
              · cases h
              · exact ⟨List.cons_ne_nil _ _, r, by simp [he], htail⟩
      have hAdmShape : ∀ q es, Adm (c :: rest) q es → ∃ q', q = c :: q' := by
        rintro q es ⟨hq, r, he, _⟩
        cases q with
        | nil => exact absurd rfl hq
        | cons a q' =>
            have : a = c := by simpa using congrArg (fun l => l.head?) he.symm
            exact ⟨q', by rw [this]⟩
      simp only [reMatch?, if_neg hc]
      cases hdnt : dashNumTail? rest with
      | some ds₀ =>
          constructor
          · intro h
            obtain ⟨rfl, rfl⟩ : [c] = p ∧ ds₀ = ds := by simpa using h
            refine ⟨(hAdm1 ds₀).mpr hdnt, ?_⟩
            rintro q es hq
            obtain ⟨q', rfl⟩ := hAdmShape q es hq
            simp
          · rintro ⟨hadm, hmin⟩
            obtain ⟨q', rfl⟩ := hAdmShape p ds hadm
            have h1 := hmin [c] ds₀ ((hAdm1 ds₀).mpr hdnt)
            have hq' : q' = [] := by
              cases q' with
              | nil => rfl
              | cons a t =>
                  exfalso
                  simp only [List.length_cons, List.length_nil] at h1
                  omega
            subst hq'
            have h2 := (hAdm1 ds).mp hadm
            rw [hdnt] at h2
            obtain rfl : ds₀ = ds := Option.some.inj h2
            rfl
      | none =>
          have hNo1 : ∀ es, ¬ Adm (c :: rest) [c] es := by
            intro es h
            rw [hAdm1 es] at h
            rw [h] at hdnt; cases hdnt
          cases hrm : reMatch? rest with
          | some pr =>
              obtain ⟨p₁, ds₁⟩ := pr
              have ihr := (ih hrest p₁ ds₁).mp hrm
              constructor
              · intro h
                obtain ⟨rfl, rfl⟩ : c :: p₁ = p ∧ ds₁ = ds := by simpa using h
                have hp₁ : p₁ ≠ [] := ihr.1.1
                refine ⟨(hAdmCons p₁ ds₁).mpr (Or.inr ⟨hp₁, ihr.1⟩), ?_⟩
                intro q es hq
                obtain ⟨q', rfl⟩ := hAdmShape q es hq
                rcases (hAdmCons q' es).mp hq with ⟨_, h⟩ | ⟨_, h⟩
                · rw [h] at hdnt; cases hdnt
                · simpa using ihr.2 q' es h
              · rintro ⟨hadm, hmin⟩
                obtain ⟨p', rfl⟩ := hAdmShape p ds hadm
                rcases (hAdmCons p' ds).mp hadm with ⟨_, h⟩ | ⟨hp', hadm'⟩
                · rw [h] at hdnt; cases hdnt
                · have hmin' : ∀ q es, Adm rest q es → p'.length ≤ q.length := by
                    intro q es hq
                    have := hmin (c :: q) es
                      ((hAdmCons q es).mpr (Or.inr ⟨(hq.1), hq⟩))
                    simpa using this
                  have heq := (ih hrest p' ds).mpr ⟨hadm', hmin'⟩
                  rw [hrm] at heq
                  obtain ⟨rfl, rfl⟩ : p₁ = p' ∧ ds₁ = ds := by simpa using heq
                  rfl
          | none =>
              constructor
              · intro h; simp at h
              · rintro ⟨hadm, hmin⟩
                obtain ⟨p', rfl⟩ := hAdmShape p ds hadm
                rcases (hAdmCons p' ds).mp hadm with ⟨_, h⟩ | ⟨hp', hadm'⟩
                · rw [h] at hdnt; cases hdnt
                · have hmin' : ∀ q es, Adm rest q es → p'.length ≤ q.length := by
                    intro q es hq
                    have := hmin (c :: q) es
                      ((hAdmCons q es).mpr (Or.inr ⟨(hq.1), hq⟩))
                    simpa using this
                  have heq := (ih hrest p' ds).mpr ⟨hadm', hmin'⟩
                  rw [hrm] at heq; cases heq

/-- Python `int` on a string of decimal digits. -/
def natOfDigits (ds : List Char) : Nat :=
  ds.foldl (fun a c => a * 10 + (c.toNat - '0'.toNat)) 0

/-- Python `str.strip()` (ASCII whitespace): drop whitespace from both ends. -/
def pyStrip (l : List Char) : List Char :=
  ((l.dropWhile Char.isWhitespace).reverse.dropWhile Char.isWhitespace).reverse

/-- Loop body of `get_identifiers` (lines 193-196): on a match, strip the
captured identifier and append it unless already present; otherwise keep the
accumulator. -/
def idStep (ids : List (List Char)) (file : List Char) : List (List Char) :=
  match reMatch? file with
  | some (p, _) =>
      let identifier := pyStrip p
      if identifier ∈ ids then ids else ids ++ [identifier]
  | none => ids

/-- Method `get_identifiers` (Identificator.py lines 190-196): scan the directory
listing; for each filename matching `REGEX_GET_ID`, strip the captured
identifier and append it unless already present. -/
def get_identifiers (entries : List (List Char)) : List (List Char) :=
  entries.foldl idStep []

/-- The list comprehension inside `get_busy_numbers` (lines 201-206): the
numbers of all filenames that match `REGEX_GET_NUM` and start with the
literal, unstripped prefix `identifier ++ "-"`. -/
def busy_numbers (entries : List (List Char)) (identifier : List Char) :
    List Nat :=
  entries.filterMap
    (fun file =>
      match reMatch? file with
      | some (_, ds) =>
          if (identifier ++ ['-']).isPrefixOf file then
            some (natOfDigits ds)
          else none
      | none => none)

/-! ### Number allocation (the free_numbers loop, lines 127-133)

The Python loop scans `current = 1, 2, 3, ...`, appending each candidate not
in `used`, until `count` numbers are collected.  The trace of appended values
is: the first free candidate at or above 1, then the first free candidate
above it, and so on; `nextFree` performs the inner scan past busy candidates
and `allocGo` emits one number per remaining slot. -/

/-- Every member of a list is bounded by its `foldr max 0`. -/
lemma le_foldr_max {x : Nat} {l : List Nat} (h : x ∈ l) : x ≤ l.foldr max 0 := by
  induction l with
  | nil => cases h
  | cons a t ih =>
      rcases List.mem_cons.mp h with h | h
      · subst h; exact le_max_left _ _
      · exact le_trans (ih h) (le_max_right _ _)

/-- Structural engine for the busy-skipping scan: the fuel only bounds the
number of busy candidates skipped and never changes the value (see
`nextFree_eq`). -/
def nextFreeAux (used : List Nat) : Nat → Nat → Nat
  | 0, current => current
  | fuel + 1, current =>
      if current ∈ used then nextFreeAux used fuel (current + 1) else current

/-- Smallest candidate `≥ current` not in `used` (the `while`-body steps that
increment `current` past busy values without appending).  All candidates in
`used` are `≤ used.foldr max 0`, so this fuel always suffices. -/
def nextFree (used : List Nat) (current : Nat) : Nat :=
  nextFreeAux used (used.foldr max 0 + 1 - current) current

/-- The defining recurrence of the scan: skip a busy candidate, stop at a
free one. -/
lemma nextFree_eq (used : List Nat) (current : Nat) :
    nextFree used current =
      if current ∈ used then nextFree used (current + 1) else current := by
  by_cases h : current ∈ used
  · have hle : current ≤ used.foldr max 0 := le_foldr_max h
    have hfuel : used.foldr max 0 + 1 - current =
        (used.foldr max 0 + 1 - (current + 1)) + 1 := by omega
    simp only [nextFree, hfuel, nextFreeAux, h, if_pos, if_true]
  · cases hf : used.foldr max 0 + 1 - current with
    | zero => simp [nextFree, hf, nextFreeAux, h]
    | succ k => simp [nextFree, hf, nextFreeAux, h]

/-- The appended values of the loop: one `nextFree` scan per remaining slot. -/
def allocGo (used : List Nat) : Nat → Nat → List Nat
  | 0, _ => []
  | need + 1, current =>
      let n := nextFree used current
      n :: allocGo used need (n + 1)

/-- The list `free_numbers` as computed by `rename_files` (lines 127-133): the numbers
collected by the loop, scanning candidates upward from 1. -/
def free_numbers (used : List Nat) (count : Nat) : List Nat :=
  allocGo used count 1

/-- Core facts about the scan: it never goes below `current`, it lands on a
free candidate, and it is minimal among free candidates at or above
`current`. -/
lemma nextFree_spec (used : List Nat) (current : Nat) :
    current ≤ nextFree used current ∧ nextFree used current ∉ used ∧
      ∀ y, current ≤ y → y ∉ used → nextFree used current ≤ y := by
  have key : ∀ fuel c, used.foldr max 0 + 1 - c ≤ fuel →
      c ≤ nextFree used c ∧ nextFree used c ∉ used ∧
        ∀ y, c ≤ y → y ∉ used → nextFree used c ≤ y := by
    intro fuel
    induction fuel with
    | zero =>
        intro c h
        have hcu : c ∉ used := fun hm => by
          have := le_foldr_max hm; omega
        rw [nextFree_eq, if_neg hcu]
        exact ⟨le_refl _, hcu, fun y hy _ => hy⟩
    | succ fuel ih =>
        intro c h
        rw [nextFree_eq]
        by_cases hcu : c ∈ used
        · rw [if_pos hcu]
          have hle := le_foldr_max hcu
          obtain ⟨h1, h2, h3⟩ := ih (c + 1) (by omega)
          refine ⟨le_trans (Nat.le_succ c) h1, h2, fun y hy hyu => ?_⟩
          have hne : y ≠ c := fun hcontra => hyu (hcontra ▸ hcu)
          exact h3 y (by omega) hyu
        · rw [if_neg hcu]
          exact ⟨le_refl _, hcu, fun y hy _ => hy⟩
  exact key _ current (le_refl _)

lemma nextFree_ge (used : List Nat) (current : Nat) :
    current ≤ nextFree used current := (nextFree_spec used current).1

lemma nextFree_not_mem (used : List Nat) (current : Nat) :
    nextFree used current ∉ used := (nextFree_spec used current).2.1

lemma nextFree_min (used : List Nat) {current y : Nat} (hy : current ≤ y)
    (hyu : y ∉ used) : nextFree used current ≤ y :=
  (nextFree_spec used current).2.2 y hy hyu

/-- The loop emits exactly one number per remaining slot. -/
lemma allocGo_length (used : List Nat) (need current : Nat) :
    (allocGo used need current).length = need := by
  induction need generalizing current with
  | zero => rfl
  | succ need ih => simp [allocGo, ih]

/-- Every emitted number is at least the scan position and free. -/
lemma allocGo_mem (used : List Nat) (need current : Nat) :
    ∀ x ∈ allocGo used need current, current ≤ x ∧ x ∉ used := by
  induction need generalizing current with
  | zero => intro x hx; cases hx
  | succ need ih =>
      intro x hx
      rcases List.mem_cons.mp hx with h | h
      · subst h; exact ⟨nextFree_ge used current, nextFree_not_mem used current⟩
      · obtain ⟨h1, h2⟩ := ih (nextFree used current + 1) x h
        exact ⟨le_trans (le_trans (nextFree_ge used current)
          (Nat.le_succ _)) h1, h2⟩

/-- The emitted numbers are strictly ascending. -/
lemma allocGo_chain (used : List Nat) (need current : Nat) :
    List.Chain' (· < ·) (allocGo used need current) := by
  induction need generalizing current with
  | zero => exact List.chain'_nil
  | succ need ih =>
      refine List.chain'_cons'.mpr ⟨fun y hy => ?_, ih _⟩
      have hmem := List.mem_of_mem_head? hy
      have := (allocGo_mem used need (nextFree used current + 1) y hmem).1
      omega

/-- Minimality: any free candidate at or above the scan position that the
loop did not emit is larger than everything it did emit. -/
lemma allocGo_complete (used : List Nat) (need current : Nat) :
    ∀ y, current ≤ y → y ∉ used → y ∉ allocGo used need current →
      ∀ x ∈ allocGo used need current, x < y := by
  induction need generalizing current with
  | zero => intro y _ _ _ x hx; cases hx
  | succ need ih =>
      intro y hy hyu hyl x hx
      have hne : y ≠ nextFree used current := by
        intro hcontra
        exact hyl (hcontra ▸ List.mem_cons_self _ _)
      have hle : nextFree used current ≤ y := nextFree_min used hy hyu
      rcases List.mem_cons.mp hx with h | h
      · omega
      · refine ih (nextFree used current + 1) y (by omega) hyu ?_ x h
        intro hcontra
        exact hyl (List.mem_cons_of_mem _ hcontra)

/-! ### Path building (lines 135-138)

`os.path` is modelled as its POSIX flavour (`posixpath`), matching the
path syntax used throughout the specification. -/

/-- Index of the last occurrence of `c` in `l`, if any (Python `str.rfind`). -/
def rfind (c : Char) : List Char → Option Nat
  | [] => none
  | a :: as =>
      match rfind c as with
      | some i => some (i + 1)
      | none => if a = c then some 0 else none

/-- Python `os.path.splitext` (genericpath._splitext with `sep = '/'`): split at the
last dot, provided it lies after the last separator and some character of the
basename before it is not itself a dot (so dotfiles get no extension). -/
def splitext (p : List Char) : List Char × List Char :=
  let sepIdx : Int := match rfind '/' p with | some i => (i : Int) | none => -1
  let dotIdx : Int := match rfind '.' p with | some i => (i : Int) | none => -1
  if sepIdx < dotIdx then
    let start := (sepIdx + 1).toNat
    let mid := (p.drop start).take (dotIdx.toNat - start)
    if mid.any (fun c => c ≠ '.') then (p.take dotIdx.toNat, p.drop dotIdx.toNat)
    else (p, [])
  else (p, [])

/-- Python `os.path.join` (posixpath, two arguments). -/
def joinPath (a b : List Char) : List Char :=
  if b.head? = some '/' then b
  else if a = [] ∨ a.getLast? = some '/' then a ++ b
  else a ++ '/' :: b

/-- Python `str(n)` for a natural number. -/
def natRepr (n : Nat) : List Char := Nat.toDigits 10 n

/-- Written from the words of the specification, for comparison with the
code's `os.path.splitext`: the extension as "the source filename's final
dot-suffix including the leading dot" — the basename's suffix starting at
its last dot, empty when the basename contains no dot. -/
def specFinalDotSuffix (p : List Char) : List Char :=
  let base := match rfind '/' p with | some i => p.drop (i + 1) | none => p
  match rfind '.' base with
  | some i => base.drop i
  | none => []

/-- The list `self.new_files` (lines 135-138): one destination path per
`(file, num)` pair of `zip(prev_files, free_numbers)` — `zip` stops at the
shorter list.  Destination = `os.path.join(dest_dir,
identifier + "-" + str(num) + os.path.splitext(file)[1])`. -/
def new_files (dest_dir identifier : List Char) (prev_files : List (List Char))
    (nums : List Nat) : List (List Char) :=
  (prev_files.zip nums).map
    (fun fn => joinPath dest_dir
      (identifier ++ '-' :: (natRepr fn.2 ++ (splitext fn.1).2)))

/-- The rename plan: the i-th source paired with the i-th destination, as
consumed by the confirmation text (lines 140-142) and move loop (157-159). -/
def buildPlan (prev_files : List (List Char)) (identifier : List Char)
    (nums : List Nat) (dest_dir : List Char) : List (List Char × List Char) :=
  prev_files.zip (new_files dest_dir identifier prev_files nums)

/-! ### Busy-number cache (get_busy_numbers, lines 198-206)

`self.busy_numbers` is a dict keyed by the identifier string; the method
computes the list only when the key is absent. -/

/-- One call of `get_busy_numbers`: insert the scan of the current directory
listing only if the identifier is not yet a key. -/
def get_busy_numbers_cache (cache : List (List Char × List Nat))
    (entries : List (List Char)) (identifier : List Char) :
    List (List Char × List Nat) :=
  if (cache.lookup identifier).isSome then cache
  else (identifier, busy_numbers entries identifier) :: cache

/-! ### Move execution and confirmation (lines 140-168) -/

/-- An exception raised by `shutil.move`: its type rendering and text. -/
structure PyError where
  ty : List Char
  msg : List Char

/-- The per-item error text of the `except` block (lines 161-163). -/
def errorMessage (src dst : List Char) (e : PyError) : List Char :=
  ("Error while renaming files:\n\x22".data ++ src ++ "\x22 -> \x22".data
    ++ dst ++ "\x22\n\n".data ++ e.ty ++ ": ".data ++ e.msg)

/-- The move loop (lines 157-164): attempt every pair in order; a raising
move yields its error message, a successful one yields `none`; either way the
loop proceeds to the next pair. `mv` abstracts `shutil.move` as the outcome
the filesystem gives each pair. -/
def runMoves (mv : List Char → List Char → Except PyError Unit) :
    List (List Char × List Char) → List (Option (List Char))
  | [] => []
  | (src, dst) :: rest =>
      match mv src dst with
      | Except.ok _ => none :: runMoves mv rest
      | Except.error e => some (errorMessage src dst e) :: runMoves mv rest

/-- Outcome of one `try: shutil.move ... except` iteration. -/
def moveOutcome (mv : List Char → List Char → Except PyError Unit)
    (pr : List Char × List Char) : Option (List Char) :=
  match mv pr.1 pr.2 with
  | Except.ok _ => none
  | Except.error e => some (errorMessage pr.1 pr.2 e)

/-- One line of the confirmation detail text (line 142): the separator is
`" -⁠> "` (with a word joiner). -/
def detailLine (pr : List Char × List Char) : List Char :=
  pr.1 ++ " -⁠> ".data ++ pr.2 ++ ['\n']

/-- The detail text shown for review (lines 140-142): one line per pair,
accumulated in order. -/
def details (plan : List (List Char × List Char)) : List Char :=
  plan.foldl (fun acc pr => acc ++ detailLine pr) []

/-- Result of one `rename_files` invocation, beyond its UI side effects:
the review text shown before anything happens, and the pairs actually passed
to `shutil.move`. -/
structure RenameOutcome where
  shown : List Char
  moved : List (List Char × List Char)

/-- Method `rename_files` (lines 119-168) as a function of the combo-box text, the
directory listing seen at busy-number computation time, the cache, and the
user's answer to the confirmation dialog (`confirmYes` = pressed Yes).
Returns `none` when the raw identifier text is empty (early return at line
121-123); otherwise the plan is built from the stripped identifier and the
cached (or now-computed) busy numbers, the full detail text is produced, and
the plan is executed only on an affirmative answer.  Also returns the updated
cache. -/
def rename_files (entries prev_files : List (List Char))
    (dest_dir idRaw : List Char) (cache : List (List Char × List Nat))
    (confirmYes : Bool) :
    Option (RenameOutcome × List (List Char × List Nat)) :=
  if idRaw = [] then none
  else
    let identifier := pyStrip idRaw
    let cache' := get_busy_numbers_cache cache entries identifier
    let used := (cache'.lookup identifier).getD []
    let nums := free_numbers used prev_files.length
    let plan := buildPlan prev_files identifier nums dest_dir
    some ({ shown := details plan
            moved := if confirmYes then plan else [] }, cache')

/-! ### Helper lemmas about the scanners, the plan and the details text -/

/-- Membership in one `idStep`: the old identifiers plus, on a match, the
stripped capture. -/
lemma mem_idStep (acc : List (List Char)) (f x : List Char) :
    x ∈ idStep acc f ↔
      x ∈ acc ∨ ∃ p dsx, reMatch? f = some (p, dsx) ∧ x = pyStrip p := by
  unfold idStep
  cases hm : reMatch? f with
  | none => simp
  | some pr =>
      obtain ⟨p, dsx⟩ := pr
      dsimp only
      by_cases hin : pyStrip p ∈ acc
      · rw [if_pos hin]
        constructor
        · intro h; exact Or.inl h
        · rintro (h | ⟨p', dsx', hm', rfl⟩)
          · exact h
          · obtain ⟨rfl, rfl⟩ : p = p' ∧ dsx = dsx' := by simpa using hm'
            exact hin
      · rw [if_neg hin]
        rw [List.mem_append, List.mem_singleton]
        constructor
        · rintro (h | rfl)
          · exact Or.inl h
          · exact Or.inr ⟨p, dsx, rfl, rfl⟩
        · rintro (h | ⟨p', dsx', hm', rfl⟩)
          · exact Or.inl h
          · obtain ⟨rfl, rfl⟩ : p = p' ∧ dsx = dsx' := by simpa using hm'
            exact Or.inr rfl

/-- Membership after folding `idStep` over a listing. -/
lemma mem_foldl_idStep (entries : List (List Char)) :
    ∀ (acc : List (List Char)) (x : List Char),
      x ∈ entries.foldl idStep acc ↔
        x ∈ acc ∨ ∃ f ∈ entries, ∃ p dsx,
          reMatch? f = some (p, dsx) ∧ x = pyStrip p := by
  induction entries with
  | nil => intro acc x; simp
  | cons f rest ih =>
      intro acc x
      rw [List.foldl_cons, ih, mem_idStep]
      constructor
      · rintro ((h | ⟨p, dsx, hm, rfl⟩) | ⟨g, hg, p, dsx, hm, rfl⟩)
        · exact Or.inl h
        · exact Or.inr ⟨f, List.mem_cons_self _ _, p, dsx, hm, rfl⟩
        · exact Or.inr ⟨g, List.mem_cons_of_mem _ hg, p, dsx, hm, rfl⟩
      · rintro (h | ⟨g, hg, p, dsx, hm, rfl⟩)
        · exact Or.inl (Or.inl h)
        · rcases List.mem_cons.mp hg with rfl | hg'
          · exact Or.inl (Or.inr ⟨p, dsx, hm, rfl⟩)
          · exact Or.inr ⟨g, hg', p, dsx, hm, rfl⟩

/-- Step `idStep` preserves freedom from duplicates. -/
lemma nodup_idStep (acc : List (List Char)) (f : List Char)
    (h : acc.Nodup) : (idStep acc f).Nodup := by
  unfold idStep
  cases reMatch? f with
  | none => exact h
  | some pr =>
      obtain ⟨p, dsx⟩ := pr
      dsimp only
      by_cases hin : pyStrip p ∈ acc
      · rw [if_pos hin]; exact h
      · rw [if_neg hin]
        rw [List.nodup_append]
        exact ⟨h, List.nodup_singleton _, by simpa using hin⟩

lemma nodup_foldl_idStep (entries : List (List Char)) :
    ∀ acc : List (List Char), acc.Nodup → (entries.foldl idStep acc).Nodup := by
  induction entries with
  | nil => intro acc h; exact h
  | cons f rest ih => intro acc h; exact ih _ (nodup_idStep acc f h)

/-- A filename that does not match contributes nothing to the fold. -/
lemma idStep_no_match (acc : List (List Char)) (f : List Char)
    (h : reMatch? f = none) : idStep acc f = acc := by
  unfold idStep; rw [h]

/-- Membership in `busy_numbers`: exactly the parsed digit runs of matching
filenames carrying the literal `identifier-` prefix. -/
lemma mem_busy_numbers (entries : List (List Char)) (identifier : List Char)
    (n : Nat) :
    n ∈ busy_numbers entries identifier ↔
      ∃ f ∈ entries, ∃ p dsx, reMatch? f = some (p, dsx) ∧
        (identifier ++ ['-']).isPrefixOf f = true ∧ n = natOfDigits dsx := by
  unfold busy_numbers
  rw [List.mem_filterMap]
  constructor
  · rintro ⟨f, hf, hg⟩
    cases hm : reMatch? f with
    | none => rw [hm] at hg; simp at hg
    | some pr =>
        obtain ⟨p, dsx⟩ := pr
        rw [hm] at hg
        dsimp only at hg
        by_cases hpre : (identifier ++ ['-']).isPrefixOf f = true
        · rw [if_pos hpre] at hg
          exact ⟨f, hf, p, dsx, hm, hpre, (Option.some.inj hg).symm⟩
        · rw [if_neg hpre] at hg; cases hg
  · rintro ⟨f, hf, p, dsx, hm, hpre, rfl⟩
    refine ⟨f, hf, ?_⟩
    rw [hm]
    dsimp only
    rw [if_pos hpre]

/-- Indexing a zip at a position valid for both lists. -/
lemma zip_getElem? {α β : Type} :
    ∀ (l₁ : List α) (l₂ : List β) (i : Nat) (h1 : i < l₁.length)
      (h2 : i < l₂.length),
      (l₁.zip l₂)[i]? = some (l₁.get ⟨i, h1⟩, l₂.get ⟨i, h2⟩)
  | [], _, i, h1, _ => absurd h1 (by simp)
  | _ :: _, [], i, _, h2 => absurd h2 (by simp)
  | a :: l₁, b :: l₂, 0, _, _ => by simp
  | a :: l₁, b :: l₂, i + 1, h1, h2 => by
      simpa using zip_getElem? l₁ l₂ i (by simpa using h1) (by simpa using h2)

/-- The destination list has one entry per `zip`-pair. -/
lemma new_files_length (dest_dir identifier : List Char)
    (prev_files : List (List Char)) (nums : List Nat) :
    (new_files dest_dir identifier prev_files nums).length =
      min prev_files.length nums.length := by
  simp [new_files]

/-- The i-th destination, for positions valid in both lists. -/
lemma new_files_getElem? (dest_dir identifier : List Char)
    (prev_files : List (List Char)) (nums : List Nat) (i : Nat)
    (h1 : i < prev_files.length) (h2 : i < nums.length) :
    (new_files dest_dir identifier prev_files nums)[i]? =
      some (joinPath dest_dir (identifier ++ '-' ::
        (natRepr (nums.get ⟨i, h2⟩) ++
          (splitext (prev_files.get ⟨i, h1⟩)).2))) := by
  unfold new_files
  rw [List.getElem?_map, zip_getElem? prev_files nums i h1 h2]
  rfl

/-- The plan zips sources with destinations positionally. -/
lemma buildPlan_getElem? (prev_files : List (List Char))
    (identifier : List Char) (nums : List Nat) (dest_dir : List Char)
    (i : Nat) (h1 : i < prev_files.length) (h2 : i < nums.length) :
    (buildPlan prev_files identifier nums dest_dir)[i]? =
      some (prev_files.get ⟨i, h1⟩,
        joinPath dest_dir (identifier ++ '-' ::
          (natRepr (nums.get ⟨i, h2⟩) ++
            (splitext (prev_files.get ⟨i, h1⟩)).2))) := by
  unfold buildPlan
  have hlen : i < (new_files dest_dir identifier prev_files nums).length := by
    rw [new_files_length]; omega
  rw [zip_getElem? prev_files _ i h1 hlen]
  have := new_files_getElem? dest_dir identifier prev_files nums i h1 h2
  have hget : (new_files dest_dir identifier prev_files nums).get ⟨i, hlen⟩ =
      joinPath dest_dir (identifier ++ '-' ::
        (natRepr (nums.get ⟨i, h2⟩) ++
          (splitext (prev_files.get ⟨i, h1⟩)).2)) := by
    have h' := List.getElem?_eq_getElem hlen
    rw [List.get_eq_getElem]
    rw [h'] at this
    exact Option.some.inj this
  rw [hget]

/-- Folding the detail accumulator distributes over the initial value. -/
lemma details_foldl (plan : List (List Char × List Char)) :
    ∀ acc : List Char,
      plan.foldl (fun a pr => a ++ detailLine pr) acc =
        acc ++ plan.foldl (fun a pr => a ++ detailLine pr) [] := by
  induction plan with
  | nil => intro acc; simp
  | cons pr rest ih =>
      intro acc
      rw [List.foldl_cons, List.foldl_cons, List.nil_append, ih,
        ih (detailLine pr), List.append_assoc]

lemma details_cons (pr : List Char × List Char)
    (rest : List (List Char × List Char)) :
    details (pr :: rest) = detailLine pr ++ details rest := by
  unfold details
  rw [List.foldl_cons, List.nil_append, details_foldl rest (detailLine pr)]

/-- Every planned pair's line occurs inside the review text. -/
lemma detailLine_infix (pr : List Char × List Char)
    (plan : List (List Char × List Char)) (h : pr ∈ plan) :
    List.IsInfix (detailLine pr) (details plan) := by
  induction plan with
  | nil => cases h
  | cons q rest ih =>
      rcases List.mem_cons.mp h with rfl | h'
      · exact ⟨[], details rest, by rw [details_cons]; simp⟩
      · obtain ⟨s, t, hst⟩ := ih h'
        exact ⟨detailLine q ++ s, t, by rw [details_cons, ← hst]; simp⟩

/-- The loop returns as many numbers as there are selected files. -/
lemma free_numbers_length (used : List Nat) (count : Nat) :
    (free_numbers used count).length = count :=
  allocGo_length used count 1

/-- On a cache miss the scan result is stored under the identifier key. -/
lemma cache_miss_insert (cache : List (List Char × List Nat))
    (entries : List (List Char)) (identifier : List Char)
    (h : cache.lookup identifier = none) :
    get_busy_numbers_cache cache entries identifier =
      (identifier, busy_numbers entries identifier) :: cache := by
  unfold get_busy_numbers_cache
  rw [h]
  simp

/-- On a cache hit nothing is recomputed or changed. -/
lemma cache_hit_noop (cache : List (List Char × List Nat))
    (entries : List (List Char)) (identifier : List Char)
    (h : (cache.lookup identifier).isSome = true) :
    get_busy_numbers_cache cache entries identifier = cache := by
  unfold get_busy_numbers_cache
  rw [if_pos h]

lemma lookup_cons_self (identifier : List Char) (v : List Nat)
    (cache : List (List Char × List Nat)) :
    ((identifier, v) :: cache).lookup identifier = some v := by
  simp [List.lookup]

/-- The move loop is exactly one independent attempt per pair. -/
lemma runMoves_eq_map (mv : List Char → List Char → Except PyError Unit) :
    ∀ plan : List (List Char × List Char),
      runMoves mv plan = plan.map (moveOutcome mv) := by
  intro plan
  induction plan with
  | nil => rfl
  | cons pr rest ih =>
      obtain ⟨src, dst⟩ := pr
      cases h : mv src dst with
      | ok u => simp [runMoves, moveOutcome, h, ih]
      | error e => simp [runMoves, moveOutcome, h, ih]

/-! ### Claim theorems -/

/-- C1: for every finite set `used` and count, the free_numbers loop in
rename_files returns exactly the `count` smallest positive integers not in
`used`: a strictly ascending sequence of length `count`, disjoint from
`used`, every element at least 1, and minimal — every free positive integer
it does not return is larger than everything it returns. -/
theorem free_numbers_allocates_smallest (used : List Nat) (count : Nat) :
    (free_numbers used count).length = count ∧
    List.Chain' (· < ·) (free_numbers used count) ∧
    (∀ x ∈ free_numbers used count, 1 ≤ x ∧ x ∉ used) ∧
    (∀ y, 1 ≤ y → y ∉ used → y ∉ free_numbers used count →
      ∀ x ∈ free_numbers used count, x < y) :=
  ⟨allocGo_length used count 1, allocGo_chain used count 1,
    allocGo_mem used count 1, allocGo_complete used count 1⟩

/-- Witness for C1 at `used = [2]`, `count = 2`: the loop returns `[1, 3]`
and the skipped free number 5 exceeds the returned 3. -/
theorem free_numbers_allocates_smallest_witness :
    free_numbers [2] 2 = [1, 3] ∧ 3 < 5 :=
  ⟨by decide,
    (free_numbers_allocates_smallest [2] 2).2.2.2 5 (by decide) (by decide)
      (by decide) 3 (by decide)⟩

/-- C2 counterexample: for the dotfile source `".bashrc"` the code's
destination is `/dest/Carol-3` (empty extension, because `os.path.splitext`
gives dotfiles no extension), while the claim's "final dot-suffix including
the leading dot" is `".bashrc"`, which would give `/dest/Carol-3.bashrc`. -/
theorem new_files_dotfile_counterexample :
    new_files "/dest".data "Carol".data [".bashrc".data] [3] =
      ["/dest/Carol-3".data] ∧
    specFinalDotSuffix ".bashrc".data = ".bashrc".data ∧
    joinPath "/dest".data ("Carol".data ++ '-' ::
        (natRepr 3 ++ specFinalDotSuffix ".bashrc".data)) =
      "/dest/Carol-3.bashrc".data ∧
    "/dest/Carol-3".data ≠ "/dest/Carol-3.bashrc".data := by
  refine ⟨by decide, by decide, by decide, by decide⟩

/-- C2 (amended): the plan pairs the i-th source with
`destinationDir/<identifier>-<i-th number><ext>` in source order, where
`ext` is `os.path.splitext`'s extension of the i-th source (the final
dot-suffix of the basename, but empty when every character of the basename
before the last dot is itself a dot); the spec's own example holds. -/
theorem buildPlan_pairs_positionally (prev_files : List (List Char))
    (identifier : List Char) (nums : List Nat) (dest_dir : List Char) :
    (buildPlan prev_files identifier nums dest_dir).length =
      min prev_files.length nums.length ∧
    (∀ (i : Nat) (h1 : i < prev_files.length) (h2 : i < nums.length),
      (buildPlan prev_files identifier nums dest_dir)[i]? =
        some (prev_files.get ⟨i, h1⟩,
          joinPath dest_dir (identifier ++ '-' ::
            (natRepr (nums.get ⟨i, h2⟩) ++
              (splitext (prev_files.get ⟨i, h1⟩)).2)))) ∧
    buildPlan ["a.jpg".data, "b.png".data] "Carol".data [3, 4] "/dest".data =
      [("a.jpg".data, "/dest/Carol-3.jpg".data),
       ("b.png".data, "/dest/Carol-4.png".data)] := by
  refine ⟨?_, buildPlan_getElem? prev_files identifier nums dest_dir, by decide⟩
  unfold buildPlan
  rw [List.length_zip, new_files_length]
  omega

/-- Witness for C2 (amended) at one source and one number. -/
theorem buildPlan_pairs_positionally_witness :
    (buildPlan ["a.jpg".data] "C".data [1] "/d".data)[0]? =
      some ((["a.jpg".data]).get ⟨0, by decide⟩,
        joinPath "/d".data ("C".data ++ '-' ::
          (natRepr (([1] : List Nat).get ⟨0, by decide⟩) ++
            (splitext ((["a.jpg".data]).get ⟨0, by decide⟩)).2))) :=
  (buildPlan_pairs_positionally ["a.jpg".data] "C".data [1] "/d".data).2.1
    0 (by decide) (by decide)

/-- C3 counterexample: with two sources and one allocated number the plan
builder produces a length-1 plan — it silently truncates via `zip` instead
of failing with a precondition violation. -/
theorem buildPlan_truncates_counterexample :
    buildPlan ["a.jpg".data, "b.png".data] "Carol".data [3] "/dest".data =
      [("a.jpg".data, "/dest/Carol-3.jpg".data)] ∧
    (buildPlan ["a.jpg".data, "b.png".data] "Carol".data [3]
      "/dest".data).length = 1 := by
  refine ⟨by decide, by decide⟩

/-- C3 (amended): on mismatched lengths the plan builder silently truncates
to the shorter list (`zip` semantics) and never fails; in the program the
lengths always agree because the allocation loop returns exactly one number
per selected file, so the plan then covers every source. -/
theorem buildPlan_truncation_policy (prev_files : List (List Char))
    (identifier : List Char) (nums : List Nat) (dest_dir : List Char)
    (used : List Nat) :
    (buildPlan prev_files identifier nums dest_dir).length =
      min prev_files.length nums.length ∧
    (free_numbers used prev_files.length).length = prev_files.length ∧
    (buildPlan prev_files identifier
        (free_numbers used prev_files.length) dest_dir).length =
      prev_files.length ∧
    (buildPlan prev_files identifier
        (free_numbers used prev_files.length) dest_dir).map Prod.fst =
      prev_files := by
  have hlen : (free_numbers used prev_files.length).length =
      prev_files.length := free_numbers_length used prev_files.length
  have hplan : ∀ ns : List Nat,
      (buildPlan prev_files identifier ns dest_dir).length =
        min prev_files.length ns.length := by
    intro ns
    unfold buildPlan
    rw [List.length_zip, new_files_length]
    omega
  refine ⟨hplan nums, hlen, by rw [hplan, hlen]; omega, ?_⟩
  unfold buildPlan
  apply List.map_fst_zip
  rw [new_files_length, hlen]
  omega

/-- C4: the captured digit run is parsed as its decimal value, so leading
zeros are insignificant: `Dan-007.jpg` occupies number 7 exactly like
`Dan-7.jpg`, and the next free number for `{7}` is 1. -/
theorem busy_numbers_leading_zeros :
    (∀ (k : Nat) (dsx : List Char),
      natOfDigits (List.replicate k '0' ++ dsx) = natOfDigits dsx) ∧
    busy_numbers ["Dan-007.jpg".data] "Dan".data = [7] ∧
    busy_numbers ["Dan-007.jpg".data] "Dan".data =
      busy_numbers ["Dan-7.jpg".data] "Dan".data ∧
    free_numbers [7] 1 = [1] := by
  refine ⟨?_, by decide, by decide, by decide⟩
  intro k dsx
  induction k with
  | zero => rfl
  | succ k ih =>
      rw [List.replicate_succ, List.cons_append]
      exact ih

/-- C5: a filename contributes a number for `identifier` exactly when it
matches the trailing-number pattern and its raw, unstripped text starts with
the literal `identifier-`; hence a file whose identifier portion differs
only by whitespace is excluded, even though `get_identifiers` (which trims)
reports the trimmed identifier for that very file. -/
theorem busy_numbers_raw_prefix_test (entries : List (List Char))
    (identifier : List Char) (n : Nat) :
    (n ∈ busy_numbers entries identifier ↔
      ∃ f ∈ entries, ∃ p dsx, reMatch? f = some (p, dsx) ∧
        List.IsPrefix (identifier ++ ['-']) f ∧ n = natOfDigits dsx) ∧
    busy_numbers ["Alice -1.jpg".data] "Alice".data = [] ∧
    get_identifiers ["Alice -1.jpg".data] = ["Alice".data] := by
  refine ⟨?_, by decide, by decide⟩
  rw [mem_busy_numbers]
  simp only [List.isPrefixOf_iff_prefix]

/-- Witness for C5: 1 occupies `Alice` for the exactly-prefixed file
`Alice-1.jpg`. -/
theorem busy_numbers_raw_prefix_test_witness :
    ∃ f ∈ ["Alice-1.jpg".data], ∃ p dsx,
      reMatch? f = some (p, dsx) ∧
        List.IsPrefix ("Alice".data ++ ['-']) f ∧ 1 = natOfDigits dsx :=
  (busy_numbers_raw_prefix_test ["Alice-1.jpg".data] "Alice".data 1).1.mp
    (by decide)

/-- C6: `get_identifiers` trims each captured identifier, deduplicates by
exact case-sensitive equality, silently skips non-matching filenames, and
yields `["Alice", "Bob"]` on the spec's example (with `busyNumbers` for
`Alice` equal to `{1, 2}`); distinct-case identifiers stay distinct. -/
theorem get_identifiers_trim_dedup_skip (entries : List (List Char)) :
    (get_identifiers entries).Nodup ∧
    (∀ x, x ∈ get_identifiers entries ↔
      ∃ f ∈ entries, ∃ p dsx, reMatch? f = some (p, dsx) ∧ x = pyStrip p) ∧
    (∀ (pre post : List (List Char)) (f : List Char), reMatch? f = none →
      get_identifiers (pre ++ f :: post) = get_identifiers (pre ++ post)) ∧
    get_identifiers ["Alice-1.jpg".data, "Alice-2.png".data,
      "Bob-1.txt".data] = ["Alice".data, "Bob".data] ∧
    get_identifiers ["Alice-1.jpg".data, "readme.txt".data,
      "Alice-2.png".data, "Bob-1.txt".data] = ["Alice".data, "Bob".data] ∧
    busy_numbers ["Alice-1.jpg".data, "Alice-2.png".data, "Bob-1.txt".data]
      "Alice".data = [1, 2] ∧
    get_identifiers ["a-1.x".data, "A-1.x".data] = ["a".data, "A".data] := by
  refine ⟨nodup_foldl_idStep entries [] List.nodup_nil, ?_, ?_,
    by decide, by decide, by decide, by decide⟩
  · intro x
    unfold get_identifiers
    rw [mem_foldl_idStep]
    simp
  · intro pre post f hf
    unfold get_identifiers
    rw [List.foldl_append, List.foldl_cons, idStep_no_match _ _ hf,
      ← List.foldl_append]

/-- Witness for C6: removing the non-matching `readme.txt` does not change
the identifier listing. -/
theorem get_identifiers_trim_dedup_skip_witness :
    get_identifiers (["Alice-1.jpg".data] ++ "readme.txt".data :: []) =
      get_identifiers (["Alice-1.jpg".data] ++ []) :=
  (get_identifiers_trim_dedup_skip []).2.2.1 ["Alice-1.jpg".data] []
    "readme.txt".data (by decide)

/-- C7: the move loop attempts every pair in source order independently — it
is a per-pair map, so a failing move yields a per-item message carrying the
source path, destination path and the error's type and text, and never
prevents the remaining pairs from being attempted. -/
theorem runMoves_per_item_continue
    (mv : List Char → List Char → Except PyError Unit)
    (plan : List (List Char × List Char)) :
    runMoves mv plan = plan.map (moveOutcome mv) ∧
    (runMoves mv plan).length = plan.length ∧
    (∀ (pr : List Char × List Char) (rest : List (List Char × List Char)),
      runMoves mv (pr :: rest) = moveOutcome mv pr :: runMoves mv rest) ∧
    (∀ src dst e, mv src dst = Except.error e →
      moveOutcome mv (src, dst) = some (errorMessage src dst e) ∧
      List.IsInfix src (errorMessage src dst e) ∧
      List.IsInfix dst (errorMessage src dst e) ∧
      List.IsInfix e.ty (errorMessage src dst e) ∧
      List.IsInfix e.msg (errorMessage src dst e)) ∧
    (∀ src dst u, mv src dst = Except.ok u →
      moveOutcome mv (src, dst) = none) := by
  refine ⟨runMoves_eq_map mv plan, ?_, ?_, ?_, ?_⟩
  · rw [runMoves_eq_map]
    exact List.length_map _ _
  · intro pr rest
    rw [runMoves_eq_map, runMoves_eq_map, List.map_cons]
  · intro src dst e he
    refine ⟨by simp [moveOutcome, he], ?_, ?_, ?_, ?_⟩
    · exact ⟨"Error while renaming files:\n\x22".data,
        "\x22 -> \x22".data ++ dst ++ "\x22\n\n".data ++ e.ty ++ ": ".data
          ++ e.msg, by simp [errorMessage]⟩
    · exact ⟨"Error while renaming files:\n\x22".data ++ src
          ++ "\x22 -> \x22".data,
        "\x22\n\n".data ++ e.ty ++ ": ".data ++ e.msg,
        by simp [errorMessage]⟩
    · exact ⟨"Error while renaming files:\n\x22".data ++ src
          ++ "\x22 -> \x22".data ++ dst ++ "\x22\n\n".data,
        ": ".data ++ e.msg, by simp [errorMessage]⟩
    · exact ⟨"Error while renaming files:\n\x22".data ++ src
          ++ "\x22 -> \x22".data ++ dst ++ "\x22\n\n".data ++ e.ty
          ++ ": ".data, [], by simp [errorMessage]⟩
  · intro src dst u hu
    simp [moveOutcome, hu]

/-- Witness for C7: a mover that always fails still attempts both pairs and
reports both, and the first source path occurs in its message. -/
theorem runMoves_per_item_continue_witness :
    runMoves (fun _ _ => Except.error ⟨"E".data, "m".data⟩)
        [("a".data, "b".data), ("c".data, "d".data)] =
      [some (errorMessage "a".data "b".data ⟨"E".data, "m".data⟩),
       some (errorMessage "c".data "d".data ⟨"E".data, "m".data⟩)] ∧
    List.IsInfix "a".data (errorMessage "a".data "b".data
      ⟨"E".data, "m".data⟩) :=
  ⟨rfl,
    ((runMoves_per_item_continue (fun _ _ => Except.error ⟨"E".data, "m".data⟩)
      []).2.2.2.1 "a".data "b".data ⟨"E".data, "m".data⟩ rfl).2.1⟩

/-- C8: for every rename request with a non-empty identifier text, the
review text shown before anything happens lists every planned pair — the
plan covering every selected source in order — and a non-affirmative answer
to the confirmation performs zero moves, while Yes executes exactly the
reviewed plan. -/
theorem rename_files_confirmation (entries prev_files : List (List Char))
    (dest_dir idRaw : List Char) (cache : List (List Char × List Nat))
    (confirmYes : Bool) (h : idRaw ≠ []) :
    ∃ (out : RenameOutcome) (cache' : List (List Char × List Nat)),
      rename_files entries prev_files dest_dir idRaw cache confirmYes =
        some (out, cache') ∧
      (∃ plan : List (List Char × List Char),
        plan.map Prod.fst = prev_files ∧
        out.shown = details plan ∧
        (∀ pr ∈ plan, List.IsInfix (detailLine pr) out.shown) ∧
        (confirmYes = true → out.moved = plan)) ∧
      (confirmYes = false → out.moved = []) := by
  refine ⟨⟨details (buildPlan prev_files (pyStrip idRaw)
      (free_numbers (((get_busy_numbers_cache cache entries
          (pyStrip idRaw)).lookup (pyStrip idRaw)).getD [])
        prev_files.length) dest_dir),
    if confirmYes then buildPlan prev_files (pyStrip idRaw)
      (free_numbers (((get_busy_numbers_cache cache entries
          (pyStrip idRaw)).lookup (pyStrip idRaw)).getD [])
        prev_files.length) dest_dir else []⟩,
    get_busy_numbers_cache cache entries (pyStrip idRaw), ?_,
    ⟨buildPlan prev_files (pyStrip idRaw)
      (free_numbers (((get_busy_numbers_cache cache entries
          (pyStrip idRaw)).lookup (pyStrip idRaw)).getD [])
        prev_files.length) dest_dir, ?_, rfl, ?_, ?_⟩, ?_⟩
  · unfold rename_files
    rw [if_neg h]
  · unfold buildPlan
    apply List.map_fst_zip
    rw [new_files_length, free_numbers_length]
    omega
  · intro pr hpr
    exact detailLine_infix pr _ hpr
  · intro hc
    simp [hc]
  · intro hc
    simp [hc]

/-- Witness for C8: a concrete request with a non-affirmative answer. -/
theorem rename_files_confirmation_witness :
    ∃ (out : RenameOutcome) (cache' : List (List Char × List Nat)),
      rename_files ["A-1.jpg".data] ["x.png".data] "/d".data "A".data []
          false = some (out, cache') ∧
      (∃ plan : List (List Char × List Char),
        plan.map Prod.fst = ["x.png".data] ∧
        out.shown = details plan ∧
        (∀ pr ∈ plan, List.IsInfix (detailLine pr) out.shown) ∧
        (false = true → out.moved = plan)) ∧
      (false = false → out.moved = []) :=
  rename_files_confirmation ["A-1.jpg".data] ["x.png".data] "/d".data
    "A".data [] false (by decide)

/-- C9: the busy-number set is computed at most once per identifier: a first
call on a miss stores the scan of the then-current listing under the
identifier key, and any later call for the same identifier — even with a
completely different directory listing — leaves the cache unchanged and
yields the originally scanned value. -/
theorem get_busy_numbers_compute_once (cache : List (List Char × List Nat))
    (entries entries' : List (List Char)) (identifier : List Char) :
    (cache.lookup identifier = none →
      (get_busy_numbers_cache cache entries identifier).lookup identifier =
        some (busy_numbers entries identifier)) ∧
    ((cache.lookup identifier).isSome = true →
      get_busy_numbers_cache cache entries' identifier = cache) ∧
    (cache.lookup identifier = none →
      get_busy_numbers_cache (get_busy_numbers_cache cache entries identifier)
          entries' identifier =
        get_busy_numbers_cache cache entries identifier ∧
      (get_busy_numbers_cache (get_busy_numbers_cache cache entries identifier)
          entries' identifier).lookup identifier =
        some (busy_numbers entries identifier)) := by
  have hmiss : cache.lookup identifier = none →
      (get_busy_numbers_cache cache entries identifier).lookup identifier =
        some (busy_numbers entries identifier) := by
    intro h
    rw [cache_miss_insert cache entries identifier h, lookup_cons_self]
  refine ⟨hmiss, cache_hit_noop cache entries' identifier, ?_⟩
  intro h
  have h1 := hmiss h
  have h2 : get_busy_numbers_cache (get_busy_numbers_cache cache entries
      identifier) entries' identifier =
        get_busy_numbers_cache cache entries identifier :=
    cache_hit_noop _ entries' identifier (by rw [h1]; rfl)
  exact ⟨h2, by rw [h2, h1]⟩

/-- Witness for C9: a first call on the empty cache stores the scan of
`["B-2.x"]`, and a second call against an empty listing changes nothing. -/
theorem get_busy_numbers_compute_once_witness :
    (get_busy_numbers_cache ([] : List (List Char × List Nat))
        ["B-2.x".data] "B".data).lookup "B".data =
      some (busy_numbers ["B-2.x".data] "B".data) ∧
    get_busy_numbers_cache
        (get_busy_numbers_cache [] ["B-2.x".data] "B".data) [] "B".data =
      get_busy_numbers_cache [] ["B-2.x".data] "B".data :=
  ⟨(get_busy_numbers_compute_once [] ["B-2.x".data] [] "B".data).1 rfl,
    ((get_busy_numbers_compute_once [] ["B-2.x".data] [] "B".data).2.2
      rfl).1⟩

/-- C10: on newline-free filenames both parsers resolve ambiguity by the
leftmost admissible split — a match returns exactly the admissible
decomposition with the shortest identifier prefix, whose digit run is the
captured number — so `A-1.x-2.jpg` parses as `("A", 1)` while `A-1-2.jpg`
parses as `("A-1", 2)`. -/
theorem reMatch_leftmost_policy :
    (∀ s : List Char, '\n' ∉ s → ∀ p dsx : List Char,
      reMatch? s = some (p, dsx) ↔
        Adm s p dsx ∧ ∀ q es, Adm s q es → p.length ≤ q.length) ∧
    reMatch? "A-1.x-2.jpg".data = some ("A".data, "1".data) ∧
    reMatch? "A-1-2.jpg".data = some ("A-1".data, "2".data) ∧
    get_identifiers ["A-1.x-2.jpg".data] = ["A".data] ∧
    busy_numbers ["A-1.x-2.jpg".data] "A".data = [1] ∧
    get_identifiers ["A-1-2.jpg".data] = ["A-1".data] ∧
    busy_numbers ["A-1-2.jpg".data] "A-1".data = [2] := by
  refine ⟨?_, by decide, by decide, by decide, by decide, by decide,
    by decide⟩
  intro s hs p dsx
  exact reMatch_iff s (fun c hc heq => hs (heq ▸ hc)) p dsx

/-- Witness for C10: the split of `A-1.jpg` at `("A", "1")` is admissible
and of minimal prefix length. -/
theorem reMatch_leftmost_policy_witness :
    Adm "A-1.jpg".data "A".data "1".data :=
  ((reMatch_leftmost_policy.1 "A-1.jpg".data (by decide) "A".data
    "1".data).mp (by decide)).1

end Identificator
